import Mathlib

/-!
Shallow embedding of the chunked sub-allocator of gfx-mem (src/chunked.rs).

Machine integers (u64, usize) are modelled as Nat; all arithmetic in the
source stays well below the u64 range on the inputs the theorems quantify
over, except where an explicit bound hypothesis is stated.  Rust panics
(failed assertions, unwrap of None, out of bounds indexing, division by
zero) are modelled by an outer Option layer: a result of none means the
operation aborts.  Calls into the upstream owner are modelled by passing
the owner reply in explicitly: the owner either fails with a MemoryError
or grants a backing block.
-/

/-- Error kind returned by allocator operations, mirroring MemoryError. -/
inductive MemoryError where
  | NoCompatibleMemoryType
  | OutOfMemory
  deriving DecidableEq

/-- The fields of gfx_hal Requirements that the allocator reads. -/
structure Requirements where
  size : Nat
  alignment : Nat
  type_mask : Nat
  deriving DecidableEq

/-- A backing block granted by the owner: an identity for the underlying
memory object plus a byte range inside it. -/
structure RawBlock where
  memory : Nat
  start : Nat
  stop : Nat
  deriving DecidableEq

/-- Size of a raw block: range end minus range start. -/
def RawBlock.size (b : RawBlock) : Nat := b.stop - b.start

/-- A chunk handle as returned to the caller: memory identity, byte range
and the tag carrying the index of the backing block it was carved from. -/
structure TaggedBlock where
  memory : Nat
  start : Nat
  stop : Nat
  tag : Nat
  deriving DecidableEq

/-- Size of a chunk handle: range end minus range start. -/
def TaggedBlock.size (b : TaggedBlock) : Nat := b.stop - b.start

/-- Modelled from the spec: the helper alignment_shift lives at the crate
root, which is not under src.  The spec states that the grow assertion
checks the granted block start is aligned to the chunk size, so the shift
must be zero exactly when the offset is a multiple of the alignment; this
is the usual align-up shift. -/
def alignment_shift (alignment offset : Nat) : Nat :=
  if offset % alignment = 0 then 0 else alignment - offset % alignment

/-- State of struct ChunkedNode.  The free deque is a list whose head is
the deque front; push_front conses, push_back appends, pop_front takes the
head.  The Rust method free clashes with the field name in Lean, so the
method is named freeBlock below. -/
structure ChunkedNode where
  id : Nat
  chunks_per_block : Nat
  chunk_size : Nat
  free : List (Nat × Nat)
  blocks : List RawBlock
  deriving DecidableEq

/-- ChunkedNode::new. -/
def ChunkedNode.new (chunk_size : Nat) (chunks_per_block : Nat) (id : Nat) :
    ChunkedNode :=
  { id := id, chunks_per_block := chunks_per_block, chunk_size := chunk_size,
    free := [], blocks := [] }

/-- ChunkedNode::count. -/
def ChunkedNode.count (n : ChunkedNode) : Nat :=
  n.blocks.length * n.chunks_per_block

/-- The Requirements value ChunkedNode::grow sends to the owner. -/
def ChunkedNode.growRequirements (n : ChunkedNode) : Requirements :=
  { type_mask := 1 <<< n.id,
    size := n.chunk_size * n.chunks_per_block,
    alignment := n.chunk_size }

/-- ChunkedNode::grow with the owner reply passed in explicitly.  The
checks mirror the two assertions; the chunk_size = 0 guard models the
division by zero panic inside the second assertion.  On success the new
free slots are pushed at the back of the deque, then the block is
appended. -/
def ChunkedNode.growWith (n : ChunkedNode) (resp : Except MemoryError RawBlock) :
    Option (Except MemoryError ChunkedNode) :=
  match resp with
  | Except.error e => some (Except.error e)
  | Except.ok block =>
    if alignment_shift n.growRequirements.alignment block.start ≠ 0 then none
    else if n.chunk_size = 0 then none
    else if ¬ (n.chunks_per_block ≤ block.size / n.chunk_size) then none
    else some (Except.ok { n with
      free := n.free ++
        (List.range n.chunks_per_block).map (fun i => (n.blocks.length, i)),
      blocks := n.blocks ++ [block] })

/-- ChunkedNode::alloc_no_grow: pop the free deque front and build the
chunk handle over offset..chunk_size + offset of the owning block memory,
tagged with the block index.  The outer none models the out of bounds
indexing panic; some none models an empty free deque. -/
def ChunkedNode.alloc_no_grow (n : ChunkedNode) :
    Option (Option (TaggedBlock × ChunkedNode)) :=
  match n.free with
  | [] => some none
  | (block_index, chunk_index) :: rest =>
    match n.blocks[block_index]? with
    | none => none
    | some blk =>
      some (some
        ({ memory := blk.memory,
           start := chunk_index * n.chunk_size,
           stop := n.chunk_size + chunk_index * n.chunk_size,
           tag := block_index },
         { n with free := rest }))

/-- ChunkedNode::alloc.  The reply resp is what the owner returns if grow
is reached.  On the fast path the two assertions are checked; on the grow
path the code pops again and unwraps, so an empty deque there is a
panic (none). -/
def ChunkedNode.alloc (n : ChunkedNode) (reqs : Requirements)
    (resp : Except MemoryError RawBlock) :
    Option (Except MemoryError TaggedBlock × ChunkedNode) :=
  if (1 <<< n.id) &&& reqs.type_mask = 0 then
    some (Except.error MemoryError.NoCompatibleMemoryType, n)
  else
    match n.alloc_no_grow with
    | none => none
    | some (some (block, n1)) =>
      if block.size ≥ reqs.size ∧ block.start &&& (reqs.alignment - 1) = 0 then
        some (Except.ok block, n1)
      else none
    | some none =>
      match n.growWith resp with
      | none => none
      | some (Except.error e) => some (Except.error e, n)
      | some (Except.ok n2) =>
        match n2.alloc_no_grow with
        | none => none
        | some none => none
        | some (some (block, n3)) => some (Except.ok block, n3)

/-- ChunkedNode::free (named freeBlock since free is the field name).  The
chunk_size = 0 guard models the modulo by zero panic in the first
assertion; the blocks lookup models the indexing panic; the memory
identity comparison mirrors the ptr::eq assertion.  The recovered pair is
pushed on the front of the free deque. -/
def ChunkedNode.freeBlock (n : ChunkedNode) (block : TaggedBlock) :
    Option ChunkedNode :=
  if n.chunk_size = 0 then none
  else if ¬ (block.start % n.chunk_size = 0) then none
  else if ¬ (block.size = n.chunk_size) then none
  else
    match n.blocks[block.tag]? with
    | none => none
    | some b =>
      if b.memory = block.memory then
        some { n with free := (block.tag, block.start / n.chunk_size) :: n.free }
      else none

/-- ChunkedNode::is_used. -/
def ChunkedNode.is_used (n : ChunkedNode) : Bool :=
  n.count != n.free.length

/-- ChunkedNode::dispose: when the node is not used, every backing block
is handed back to the owner in block index order; the returned list
records them.  When the node is used, the node itself is returned
unchanged. -/
def ChunkedNode.dispose (n : ChunkedNode) : Except ChunkedNode (List RawBlock) :=
  if n.is_used then Except.error n else Except.ok n.blocks

/-- State of struct ChunkedAllocator. -/
structure ChunkedAllocator where
  id : Nat
  chunks_per_block : Nat
  min_chunk_size : Nat
  max_chunk_size : Nat
  nodes : List ChunkedNode
  deriving DecidableEq

/-- ChunkedAllocator::new. -/
def ChunkedAllocator.new (chunks_per_block min_chunk_size max_chunk_size id : Nat) :
    ChunkedAllocator :=
  { id := id, chunks_per_block := chunks_per_block,
    min_chunk_size := min_chunk_size, max_chunk_size := max_chunk_size,
    nodes := [] }

/-- Bit length of a natural number, the value of 64 minus
u64::leading_zeros for values below 2 to the 64. -/
def bitLen (v : Nat) : Nat := if v = 0 then 0 else Nat.log2 v + 1

/-- Leading zero count of a u64 value (meaningful for v below 2 to the
64). -/
def u64_leading_zeros (v : Nat) : Nat := 64 - bitLen v

/-- Bit width of usize on a 64 bit platform, the value of
size_of::usize times 8 in pick_node. -/
def usize_bits : Nat := 64

/-- ChunkedAllocator::pick_node.  The none result models the
assert size != 0 failing.  The debug_assert on max_chunk_size is compiled
out in release builds and is not modelled. -/
def ChunkedAllocator.pick_node (a : ChunkedAllocator) (size : Nat) : Option Nat :=
  if size = 0 then none
  else some (usize_bits - u64_leading_zeros ((size - 1) / a.min_chunk_size))

/-- ChunkedAllocator::grow: extends nodes so that indices up to and
including the argument exist, node index i having chunk size
min_chunk_size times 2 to the i.  The none result models the assertion
chunk_size(size) <= max_chunk_size failing. -/
def ChunkedAllocator.grow (a : ChunkedAllocator) (size : Nat) :
    Option ChunkedAllocator :=
  if ¬ (a.min_chunk_size * (1 <<< size) ≤ a.max_chunk_size) then none
  else
    some { a with
      nodes := a.nodes ++
        (List.range' a.nodes.length (size + 1 - a.nodes.length)).map
          (fun index =>
            ChunkedNode.new (a.min_chunk_size * (1 <<< index)) a.chunks_per_block a.id) }

/-- ChunkedAllocator::alloc.  A none result models a panic somewhere on
the path (pick_node assertion, grow assertion, node indexing, or a panic
inside the node alloc). -/
def ChunkedAllocator.alloc (a : ChunkedAllocator) (reqs : Requirements)
    (resp : Except MemoryError RawBlock) :
    Option (Except MemoryError TaggedBlock × ChunkedAllocator) :=
  if reqs.size > a.max_chunk_size then
    some (Except.error MemoryError.OutOfMemory, a)
  else
    match a.pick_node (max reqs.size reqs.alignment) with
    | none => none
    | some index =>
      match a.grow (index + 1) with
      | none => none
      | some a1 =>
        match a1.nodes[index]? with
        | none => none
        | some node =>
          match node.alloc reqs resp with
          | none => none
          | some (res, node1) =>
            some (res, { a1 with nodes := a1.nodes.set index node1 })

/-- ChunkedAllocator::free (named freeBlock to match the node method). -/
def ChunkedAllocator.freeBlock (a : ChunkedAllocator) (block : TaggedBlock) :
    Option ChunkedAllocator :=
  match a.pick_node block.size with
  | none => none
  | some index =>
    match a.nodes[index]? with
    | none => none
    | some node =>
      match node.freeBlock block with
      | none => none
      | some node1 => some { a with nodes := a.nodes.set index node1 }

/-- ChunkedAllocator::is_used. -/
def ChunkedAllocator.is_used (a : ChunkedAllocator) : Bool :=
  a.nodes.any ChunkedNode.is_used

/-- The loop inside ChunkedAllocator::dispose: dispose every node in
order, collecting the blocks handed back to the owner; none models the
unwrap panic if a node turns out to be used. -/
def disposeNodes : List ChunkedNode → Option (List RawBlock)
  | [] => some []
  | n :: rest =>
    match n.dispose with
    | Except.error _ => none
    | Except.ok bs =>
      match disposeNodes rest with
      | none => none
      | some bs1 => some (bs ++ bs1)

/-- ChunkedAllocator::dispose. -/
def ChunkedAllocator.dispose (a : ChunkedAllocator) :
    Option (Except ChunkedAllocator (List RawBlock)) :=
  if a.is_used then some (Except.error a)
  else
    match disposeNodes a.nodes with
    | none => none
    | some bs => some (Except.ok bs)

deriving instance DecidableEq for Except

/-- Chunks carried by an alloc result: one chunk on success, none on
error. -/
def issuedOf : Except MemoryError TaggedBlock → List TaggedBlock
  | Except.ok X => [X]
  | Except.error _ => []

example : (ChunkedAllocator.new 2 1 4 0).alloc ⟨1, 1, 1⟩
    (Except.ok ⟨10, 0, 2⟩) =
    some (Except.ok ⟨10, 0, 1, 0⟩,
      { id := 0, chunks_per_block := 2, min_chunk_size := 1, max_chunk_size := 4,
        nodes := [⟨0, 2, 1, [(0, 1)], [⟨10, 0, 2⟩]⟩, ⟨0, 2, 2, [], []⟩] }) := by
  decide

/-! Helper lemmas about bit length. -/

theorem lt_two_pow_bitLen (v : Nat) : v < 2 ^ bitLen v := by
  unfold bitLen
  split
  · omega
  · rw [Nat.log2_eq_log_two]
    exact Nat.lt_pow_succ_log_self (by norm_num) v

theorem bitLen_le_of_lt {v b : Nat} (h : v < 2 ^ b) : bitLen v ≤ b := by
  unfold bitLen
  split
  · omega
  · rw [Nat.log2_eq_log_two]
    have := (Nat.lt_pow_iff_log_lt (by norm_num) (by assumption)).mp h
    omega

/-- C1: for sizes in the u64 range with 1 <= size <= max_chunk_size and
min_chunk_size a power of two, pick_node returns the bit length of
(size - 1) / min_chunk_size, which is the unique smallest index i with
min_chunk_size * 2 ^ i >= size; moreover the result depends only on
min_chunk_size and the argument, consulting no other state. -/
theorem pick_node_correct (a : ChunkedAllocator) (size m : Nat)
    (hmin : a.min_chunk_size = 2 ^ m) (h1 : 1 ≤ size)
    (_h2 : size ≤ a.max_chunk_size) (hu : size < 2 ^ 64) :
    a.pick_node size = some (bitLen ((size - 1) / a.min_chunk_size)) ∧
    (∀ r, a.pick_node size = some r →
      size ≤ a.min_chunk_size * 2 ^ r ∧
      ∀ j, size ≤ a.min_chunk_size * 2 ^ j → r ≤ j) ∧
    (∀ a2 : ChunkedAllocator, a2.min_chunk_size = a.min_chunk_size →
      a2.pick_node size = a.pick_node size) := by
  have hq : (size - 1) / a.min_chunk_size < 2 ^ 64 :=
    lt_of_le_of_lt (Nat.div_le_self _ _) (lt_of_le_of_lt (Nat.sub_le _ _) hu)
  have hfirst : a.pick_node size = some (bitLen ((size - 1) / a.min_chunk_size)) := by
    have hs0 : ¬ size = 0 := by omega
    simp [ChunkedAllocator.pick_node, hs0, u64_leading_zeros, usize_bits,
      Nat.sub_sub_self (bitLen_le_of_lt hq)]
  refine ⟨hfirst, ?_, ?_⟩
  · intro r hr
    rw [hfirst] at hr
    obtain rfl : bitLen ((size - 1) / a.min_chunk_size) = r := by
      exact Option.some.inj hr
    have hpos : 0 < a.min_chunk_size := by rw [hmin]; exact Nat.pos_pow_of_pos m (by omega)
    constructor
    · have hdiv := lt_two_pow_bitLen ((size - 1) / a.min_chunk_size)
      have := (Nat.div_lt_iff_lt_mul hpos).mp hdiv
      have hcomm : 2 ^ bitLen ((size - 1) / a.min_chunk_size) * a.min_chunk_size =
          a.min_chunk_size * 2 ^ bitLen ((size - 1) / a.min_chunk_size) := Nat.mul_comm _ _
      omega
    · intro j hj
      have hlt : size - 1 < 2 ^ j * a.min_chunk_size := by
        have hcomm : 2 ^ j * a.min_chunk_size = a.min_chunk_size * 2 ^ j := Nat.mul_comm _ _
        omega
      exact bitLen_le_of_lt ((Nat.div_lt_iff_lt_mul hpos).mpr hlt)
  · intro a2 hsame
    simp [ChunkedAllocator.pick_node, hsame]

/-- Witness for C1 at min_chunk_size 256, size 257: the picked index is 1
and 256 * 2 ^ 1 = 512 covers 257. -/
theorem pick_node_correct_witness :
    (ChunkedAllocator.new 1 256 1024 0).pick_node 257 = some 1 ∧
    257 ≤ (ChunkedAllocator.new 1 256 1024 0).min_chunk_size * 2 ^ 1 := by
  have h := pick_node_correct (ChunkedAllocator.new 1 256 1024 0) 257 8
    (by decide) (by decide) (by decide) (by decide)
  have h1 : (ChunkedAllocator.new 1 256 1024 0).pick_node 257 = some 1 := by
    rw [h.1]
    norm_num [bitLen, ChunkedAllocator.new, Nat.log2]
  exact ⟨h1, (h.2.1 1 h1).1⟩

/-- C2 (code bug evidence): with min_chunk_size = max_chunk_size = 256, a
request of size 256 (which alloc explicitly lets past the OutOfMemory
check) picks index 0, and grow(0 + 1) trips its assertion
min_chunk_size * 2 ^ 1 <= max_chunk_size, aborting before delegation. -/
theorem top_size_class_alloc_aborts :
    (ChunkedAllocator.new 1 256 256 0).alloc ⟨256, 1, 1⟩
      (Except.ok ⟨0, 0, 256⟩) = none := by
  decide

/-- C3: a request whose size exceeds max_chunk_size fails with
OutOfMemory; the router state is returned unchanged and the result does
not depend on the owner reply, which is never consulted. -/
theorem oversize_rejected (a : ChunkedAllocator) (reqs : Requirements)
    (resp : Except MemoryError RawBlock) (h : reqs.size > a.max_chunk_size) :
    a.alloc reqs resp = some (Except.error MemoryError.OutOfMemory, a) := by
  simp [ChunkedAllocator.alloc, h]

/-- Witness for C3 at max_chunk_size 256, size 257. -/
theorem oversize_rejected_witness :
    (ChunkedAllocator.new 1 256 256 0).alloc ⟨257, 1, 1⟩
      (Except.error MemoryError.OutOfMemory) =
      some (Except.error MemoryError.OutOfMemory, ChunkedAllocator.new 1 256 256 0) :=
  oversize_rejected _ _ _ (by decide)

/-- C4: a request whose type mask misses the node memory type bit fails
with NoCompatibleMemoryType; the node state is returned unchanged and the
result does not depend on the owner reply, which is never consulted. -/
theorem incompatible_type_rejected (n : ChunkedNode) (reqs : Requirements)
    (resp : Except MemoryError RawBlock)
    (h : (1 <<< n.id) &&& reqs.type_mask = 0) :
    n.alloc reqs resp = some (Except.error MemoryError.NoCompatibleMemoryType, n) := by
  simp [ChunkedNode.alloc, h]

/-- Witness for C4: memory type 1 against type mask 1 (only bit 0 set). -/
theorem incompatible_type_rejected_witness :
    (ChunkedNode.new 4 1 1).alloc ⟨1, 1, 1⟩ (Except.error MemoryError.OutOfMemory) =
      some (Except.error MemoryError.NoCompatibleMemoryType, ChunkedNode.new 4 1 1) :=
  incompatible_type_rejected _ _ _ (by decide)

/-! Characterization of the four outcomes of ChunkedNode.alloc. -/

theorem growWith_err (n : ChunkedNode) (e : MemoryError) :
    n.growWith (Except.error e) = some (Except.error e) := rfl

theorem growWith_ok_eq (n : ChunkedNode) (block : RawBlock)
    (h1 : alignment_shift n.growRequirements.alignment block.start = 0)
    (h2 : n.chunk_size ≠ 0) (h3 : n.chunks_per_block ≤ block.size / n.chunk_size) :
    n.growWith (Except.ok block) = some (Except.ok { n with
      free := n.free ++
        (List.range n.chunks_per_block).map (fun i => (n.blocks.length, i)),
      blocks := n.blocks ++ [block] }) := by
  simp only [ChunkedNode.growWith]
  simp [h1, h2, h3]

theorem node_alloc_cases (n : ChunkedNode) (reqs : Requirements)
    (resp : Except MemoryError RawBlock) (res : Except MemoryError TaggedBlock)
    (n1 : ChunkedNode) (h : n.alloc reqs resp = some (res, n1)) :
    (res = Except.error MemoryError.NoCompatibleMemoryType ∧ n1 = n) ∨
    (∃ e, res = Except.error e ∧ n1 = n) ∨
    (∃ bi ci rest blk, n.free = (bi, ci) :: rest ∧ n.blocks[bi]? = some blk ∧
      res = Except.ok ⟨blk.memory, ci * n.chunk_size,
        n.chunk_size + ci * n.chunk_size, bi⟩ ∧
      n1 = { n with free := rest }) ∨
    (∃ block k, n.free = [] ∧ resp = Except.ok block ∧
      n.chunks_per_block = k + 1 ∧
      res = Except.ok ⟨block.memory, 0, n.chunk_size, n.blocks.length⟩ ∧
      n1 = { n with
        free := List.map (fun i => (n.blocks.length, i + 1)) (List.range k),
        blocks := n.blocks ++ [block] }) := by
  by_cases hty : (1 <<< n.id) &&& reqs.type_mask = 0
  · rw [ChunkedNode.alloc, if_pos hty] at h
    injection h with h1
    injection h1 with ha hb
    exact Or.inl ⟨ha.symm, hb.symm⟩
  · rw [ChunkedNode.alloc, if_neg hty] at h
    cases hfree : n.free with
    | cons p rest =>
      obtain ⟨bi, ci⟩ := p
      cases hblk : n.blocks[bi]? with
      | none =>
        have hng : n.alloc_no_grow = none := by
          simp only [ChunkedNode.alloc_no_grow, hfree, hblk]
        simp [hng] at h
      | some blk =>
        have hng : n.alloc_no_grow = some (some
            (⟨blk.memory, ci * n.chunk_size, n.chunk_size + ci * n.chunk_size, bi⟩,
             { n with free := rest })) := by
          simp only [ChunkedNode.alloc_no_grow, hfree, hblk]
        simp only [hng] at h
        split at h
        · injection h with h1
          injection h1 with ha hb
          exact Or.inr (Or.inr (Or.inl
            ⟨bi, ci, rest, blk, rfl, hblk, ha.symm, hb.symm⟩))
        · simp at h
    | nil =>
      have hng : n.alloc_no_grow = some none := by
        simp only [ChunkedNode.alloc_no_grow, hfree]
      simp only [hng] at h
      cases resp with
      | error e =>
        simp only [growWith_err] at h
        injection h with h1
        injection h1 with ha hb
        exact Or.inr (Or.inl ⟨e, ha.symm, hb.symm⟩)
      | ok block =>
        by_cases hal : alignment_shift n.growRequirements.alignment block.start = 0
        · by_cases hcs : n.chunk_size = 0
          · have hg : n.growWith (Except.ok block) = none := by
              simp only [ChunkedNode.growWith]
              simp [hal, hcs]
            simp [hg] at h
          · by_cases hfit : n.chunks_per_block ≤ block.size / n.chunk_size
            · have hg := growWith_ok_eq n block hal hcs hfit
              simp only [hg] at h
              cases hk : n.chunks_per_block with
              | zero =>
                have hng2 : ({ n with
                    free := n.free ++ (List.range n.chunks_per_block).map
                      (fun i => (n.blocks.length, i)),
                    blocks := n.blocks ++ [block] } : ChunkedNode).alloc_no_grow =
                    some none := by
                  simp only [ChunkedNode.alloc_no_grow, hfree, hk, List.range_zero,
                    List.map_nil, List.nil_append]
                simp [hng2] at h
              | succ k =>
                have hfree2 : n.free ++ (List.range n.chunks_per_block).map
                    (fun i => (n.blocks.length, i)) =
                    (n.blocks.length, 0) ::
                      List.map (fun i => (n.blocks.length, i + 1)) (List.range k) := by
                  rw [hfree, hk, List.nil_append, List.range_succ_eq_map,
                    List.map_cons, List.map_map]
                  rfl
                have hng2 : ({ n with
                    free := n.free ++ (List.range n.chunks_per_block).map
                      (fun i => (n.blocks.length, i)),
                    blocks := n.blocks ++ [block] } : ChunkedNode).alloc_no_grow =
                    some (some
                      (⟨block.memory, 0 * n.chunk_size,
                        n.chunk_size + 0 * n.chunk_size, n.blocks.length⟩,
                       { n with
                         free := List.map (fun i => (n.blocks.length, i + 1))
                           (List.range k),
                         blocks := n.blocks ++ [block] })) := by
                  simp only [ChunkedNode.alloc_no_grow, hfree2]
                  simp [List.getElem?_concat_length]
                simp only [hng2] at h
                injection h with h1
                injection h1 with ha hb
                refine Or.inr (Or.inr (Or.inr ⟨block, k, rfl, rfl, rfl, ?_, ?_⟩))
                · rw [← ha]
                  simp
                · rw [hk] at hb
                  exact hb.symm
            · have hg : n.growWith (Except.ok block) = none := by
                simp only [ChunkedNode.growWith]
                simp [hal, hcs, hfit]
              simp [hg] at h
        · have hg : n.growWith (Except.ok block) = none := by
            simp only [ChunkedNode.growWith]
            simp [hal]
          simp [hg] at h

/-- Shape of a successful node allocation: configuration fields are
preserved, the returned chunk starts at a multiple of the chunk size,
spans exactly one chunk, and its tag denotes a block of the resulting
node whose memory identity the chunk carries. -/
theorem alloc_ok_shape (n : ChunkedNode) (reqs : Requirements)
    (resp : Except MemoryError RawBlock) (X : TaggedBlock) (n1 : ChunkedNode)
    (h : n.alloc reqs resp = some (Except.ok X, n1)) :
    n1.id = n.id ∧ n1.chunk_size = n.chunk_size ∧
    n1.chunks_per_block = n.chunks_per_block ∧
    ∃ ci blk, X.start = ci * n.chunk_size ∧ X.stop = n.chunk_size + X.start ∧
      n1.blocks[X.tag]? = some blk ∧ blk.memory = X.memory := by
  rcases node_alloc_cases n reqs resp _ n1 h with
    ⟨ha, _⟩ | ⟨e, ha, _⟩ | ⟨bi, ci, rest, blk, hfree, hblk, ha, hb⟩ |
    ⟨block, k, hfree, hresp, hk, ha, hb⟩
  · exact absurd ha (by simp)
  · exact absurd ha (by simp)
  · injection ha with hX
    subst hX
    subst hb
    exact ⟨rfl, rfl, rfl, ci, blk, rfl, rfl, hblk, rfl⟩
  · injection ha with hX
    subst hX
    subst hb
    refine ⟨rfl, rfl, rfl, 0, block, by simp, by simp, ?_, rfl⟩
    exact List.getElem?_concat_length n.blocks block

/-- C5: after a successful allocation of chunk X, freeing X pushes the
recovered (block index, chunk index) pair on the front of the free deque,
and the next allocation in the same size class with an equal or smaller
compatible request returns exactly X again (same backing block index,
same byte offset, same memory). -/
theorem roundtrip_reuse (n : ChunkedNode) (reqs reqs2 : Requirements)
    (resp resp2 : Except MemoryError RawBlock) (X : TaggedBlock) (n1 : ChunkedNode)
    (halloc : n.alloc reqs resp = some (Except.ok X, n1))
    (hcs : 0 < n.chunk_size) (hsz : reqs2.size ≤ n.chunk_size)
    (hpow : ∃ t, reqs2.alignment = 2 ^ t) (hdvd : reqs2.alignment ∣ n.chunk_size)
    (hty : ¬ ((1 <<< n.id) &&& reqs2.type_mask = 0)) :
    n1.freeBlock X =
      some { n1 with free := (X.tag, X.start / n.chunk_size) :: n1.free } ∧
    ChunkedNode.alloc { n1 with free := (X.tag, X.start / n.chunk_size) :: n1.free }
      reqs2 resp2 = some (Except.ok X, n1) := by
  obtain ⟨hid, hcseq, hcpb, ci, blk, hstart, hstop, hblk, hmem⟩ :=
    alloc_ok_shape n reqs resp X n1 halloc
  have g1 : ¬ (n1.chunk_size = 0) := by omega
  have g2 : X.start % n1.chunk_size = 0 := by
    rw [hcseq, hstart]
    exact Nat.mul_mod_left ci _
  have g3 : X.size = n1.chunk_size := by
    rw [hcseq]
    show X.stop - X.start = n.chunk_size
    omega
  have hdivci : X.start / n1.chunk_size = ci := by
    rw [hcseq, hstart]
    exact Nat.mul_div_cancel ci hcs
  have hfb : n1.freeBlock X =
      some { n1 with free := (X.tag, X.start / n1.chunk_size) :: n1.free } := by
    rw [ChunkedNode.freeBlock, if_neg g1, if_neg (not_not_intro g2),
      if_neg (not_not_intro g3)]
    simp only [hblk]
    rw [if_pos hmem]
  rw [← hcseq]
  refine ⟨hfb, ?_⟩
  have hng : ({ n1 with
      free := (X.tag, X.start / n1.chunk_size) :: n1.free } : ChunkedNode).alloc_no_grow =
      some (some (X, { n1 with free := n1.free })) := by
    simp only [ChunkedNode.alloc_no_grow]
    simp only [hblk]
    rw [hmem, hdivci, hcseq, ← hstart, ← hstop]
  have hdvdstart : reqs2.alignment ∣ X.start := by
    rw [hstart]
    exact Dvd.dvd.mul_left hdvd ci
  have hassert : X.size ≥ reqs2.size ∧ X.start &&& (reqs2.alignment - 1) = 0 := by
    constructor
    · rw [g3, hcseq]
      exact hsz
    · obtain ⟨t, ht⟩ := hpow
      rw [ht, Nat.and_pow_two_sub_one_eq_mod]
      rw [ht] at hdvdstart
      exact Nat.mod_eq_zero_of_dvd hdvdstart
  have hty1 : ¬ ((1 <<< n1.id) &&& reqs2.type_mask = 0) := by
    rw [hid]
    exact hty
  rw [ChunkedNode.alloc, if_neg hty1]
  simp only [hng]
  rw [if_pos hassert]

/-- Witness for C5 on a one block, one chunk node: the freed chunk is the
one returned by the next allocation. -/
theorem roundtrip_reuse_witness :
    ChunkedNode.freeBlock ⟨0, 1, 256, [], [⟨7, 0, 256⟩]⟩ ⟨7, 0, 256, 0⟩ =
      some ⟨0, 1, 256, [(0, 0)], [⟨7, 0, 256⟩]⟩ ∧
    ChunkedNode.alloc ⟨0, 1, 256, [(0, 0)], [⟨7, 0, 256⟩]⟩ ⟨1, 1, 1⟩
      (Except.error MemoryError.OutOfMemory) =
      some (Except.ok ⟨7, 0, 256, 0⟩, ⟨0, 1, 256, [], [⟨7, 0, 256⟩]⟩) :=
  roundtrip_reuse ⟨0, 1, 256, [(0, 0)], [⟨7, 0, 256⟩]⟩ ⟨1, 1, 1⟩ ⟨1, 1, 1⟩
    (Except.error MemoryError.OutOfMemory) (Except.error MemoryError.OutOfMemory)
    ⟨7, 0, 256, 0⟩ ⟨0, 1, 256, [], [⟨7, 0, 256⟩]⟩
    (by decide) (by decide) (by decide) ⟨0, by decide⟩ (by decide) (by decide)

/-- Characterization of a successful ChunkedNode.freeBlock call. -/
theorem freeBlock_cases (n : ChunkedNode) (X : TaggedBlock) (n1 : ChunkedNode)
    (h : n.freeBlock X = some n1) :
    n.chunk_size ≠ 0 ∧ X.start % n.chunk_size = 0 ∧ X.size = n.chunk_size ∧
    ∃ blk, n.blocks[X.tag]? = some blk ∧ blk.memory = X.memory ∧
      n1 = { n with free := (X.tag, X.start / n.chunk_size) :: n.free } := by
  by_cases g1 : n.chunk_size = 0
  · rw [ChunkedNode.freeBlock, if_pos g1] at h
    exact absurd h (by simp)
  · rw [ChunkedNode.freeBlock, if_neg g1] at h
    by_cases g2 : X.start % n.chunk_size = 0
    · rw [if_neg (not_not_intro g2)] at h
      by_cases g3 : X.size = n.chunk_size
      · rw [if_neg (not_not_intro g3)] at h
        cases hblk : n.blocks[X.tag]? with
        | none =>
          simp only [hblk] at h
          exact absurd h (by simp)
        | some blk =>
          simp only [hblk] at h
          by_cases g4 : blk.memory = X.memory
          · rw [if_pos g4] at h
            injection h with h1
            exact ⟨g1, g2, g3, blk, rfl, g4, h1.symm⟩
          · rw [if_neg g4] at h
            exact absurd h (by simp)
      · rw [if_pos (by exact g3)] at h
        exact absurd h (by simp)
    · rw [if_pos (by exact g2)] at h
      exact absurd h (by simp)

/-- Characterization of a ChunkedNode.growWith call that returns a node. -/
theorem growWith_ok_cases (n : ChunkedNode) (resp : Except MemoryError RawBlock)
    (n1 : ChunkedNode) (h : n.growWith resp = some (Except.ok n1)) :
    ∃ block, resp = Except.ok block ∧ n.chunk_size ≠ 0 ∧
      n.chunks_per_block ≤ block.size / n.chunk_size ∧
      alignment_shift n.growRequirements.alignment block.start = 0 ∧
      n1 = { n with
        free := n.free ++
          (List.range n.chunks_per_block).map (fun i => (n.blocks.length, i)),
        blocks := n.blocks ++ [block] } := by
  cases resp with
  | error e =>
    rw [growWith_err] at h
    injection h with h1
    exact absurd h1 (by simp)
  | ok block =>
    by_cases hal : alignment_shift n.growRequirements.alignment block.start = 0
    · by_cases hcs : n.chunk_size = 0
      · have hg : n.growWith (Except.ok block) = none := by
          simp only [ChunkedNode.growWith]
          simp [hal, hcs]
        rw [hg] at h
        exact absurd h (by simp)
      · by_cases hfit : n.chunks_per_block ≤ block.size / n.chunk_size
        · rw [growWith_ok_eq n block hal hcs hfit] at h
          injection h with h1
          injection h1 with h2
          exact ⟨block, rfl, hcs, hfit, hal, h2.symm⟩
        · have hg : n.growWith (Except.ok block) = none := by
            simp only [ChunkedNode.growWith]
            simp [hal, hcs, hfit]
          rw [hg] at h
          exact absurd h (by simp)
    · have hg : n.growWith (Except.ok block) = none := by
        simp only [ChunkedNode.growWith]
        simp [hal]
      rw [hg] at h
      exact absurd h (by simp)

/-- Node states reachable from a fresh node, together with the list of
chunks handed out and not yet freed.  Steps are alloc with an arbitrary
owner reply (recording the chunk on success), free of an outstanding
chunk, and grow with an arbitrary owner reply. -/
inductive NodeReach : ChunkedNode → List TaggedBlock → Prop where
  | init (chunk_size chunks_per_block id : Nat) :
      NodeReach (ChunkedNode.new chunk_size chunks_per_block id) []
  | allocStep {n : ChunkedNode} {out : List TaggedBlock} {n1 : ChunkedNode}
      (reqs : Requirements) (resp : Except MemoryError RawBlock)
      (res : Except MemoryError TaggedBlock) :
      NodeReach n out → n.alloc reqs resp = some (res, n1) →
      NodeReach n1 (issuedOf res ++ out)
  | freeStep {n : ChunkedNode} {out : List TaggedBlock} {X : TaggedBlock}
      {n1 : ChunkedNode} :
      NodeReach n out → X ∈ out → n.freeBlock X = some n1 →
      NodeReach n1 (out.erase X)
  | growStep {n : ChunkedNode} {out : List TaggedBlock} {n1 : ChunkedNode}
      (resp : Except MemoryError RawBlock) :
      NodeReach n out → n.growWith resp = some (Except.ok n1) →
      NodeReach n1 out

/-- Accounting invariant of a node together with its outstanding chunks:
the total slot count equals free slots plus outstanding chunks, free
entries denote existing blocks and chunk indices below the fan out, and
outstanding chunks carry a valid block tag and a chunk shaped range. -/
def NodeAccount (n : ChunkedNode) (out : List TaggedBlock) : Prop :=
  n.count = n.free.length + out.length ∧
  (∀ p ∈ n.free, p.1 < n.blocks.length ∧ p.2 < n.chunks_per_block) ∧
  (∀ X ∈ out, X.tag < n.blocks.length ∧
    ∃ ci, ci < n.chunks_per_block ∧ X.start = ci * n.chunk_size ∧
      X.stop = n.chunk_size + X.start)

theorem nodeReach_account {n : ChunkedNode} {out : List TaggedBlock}
    (h : NodeReach n out) : NodeAccount n out := by
  induction h with
  | init cs cpb id =>
    refine ⟨?_, ?_, ?_⟩
    · simp [ChunkedNode.new, ChunkedNode.count]
    · intro p hp
      simp [ChunkedNode.new] at hp
    · intro X hX
      cases hX
  | allocStep reqs resp res hreach halloc ih =>
    rename_i n out n1
    obtain ⟨hcount, hfreeb, houtb⟩ := ih
    rcases node_alloc_cases _ _ _ _ _ halloc with
      ⟨ha, hb⟩ | ⟨e, ha, hb⟩ | ⟨bi, ci, rest, blk, hfree, hblk, ha, hb⟩ |
      ⟨block, k, hfree, hresp, hk, ha, hb⟩
    · subst ha
      subst hb
      simpa [issuedOf] using ⟨hcount, hfreeb, houtb⟩
    · subst ha
      subst hb
      simpa [issuedOf] using ⟨hcount, hfreeb, houtb⟩
    · subst ha
      subst hb
      have hmemhead : (bi, ci) ∈ n.free := by
        rw [hfree]
        exact List.mem_cons_self _ _
      obtain ⟨hbi, hci⟩ := hfreeb _ hmemhead
      refine ⟨?_, ?_, ?_⟩
      · have hlen : n.free.length = rest.length + 1 := by rw [hfree]; rfl
        simp only [ChunkedNode.count] at hcount ⊢
        simp [issuedOf]
        omega
      · intro p hp
        have : p ∈ n.free := by
          rw [hfree]
          exact List.mem_cons_of_mem _ hp
        exact hfreeb p this
      · intro X hX
        simp only [issuedOf, List.singleton_append, List.mem_cons] at hX
        rcases hX with rfl | hX
        · exact ⟨hbi, ci, hci, rfl, rfl⟩
        · exact houtb X hX
    · subst ha
      subst hb
      refine ⟨?_, ?_, ?_⟩
      · have hfl : n.free.length = 0 := by rw [hfree]; rfl
        simp only [ChunkedNode.count] at hcount ⊢
        rw [hk] at hcount
        simp [issuedOf, hk, Nat.succ_mul]
        omega
      · intro p hp
        simp only [List.mem_map, List.mem_range] at hp
        obtain ⟨i, hi, rfl⟩ := hp
        constructor
        · simp
        · simp [hk]
          omega
      · intro X hX
        simp only [issuedOf, List.singleton_append, List.mem_cons] at hX
        rcases hX with rfl | hX
        · refine ⟨by simp, 0, by simp [hk], by simp, by simp⟩
        · obtain ⟨htag, ci, hci, hstart, hstop⟩ := houtb X hX
          refine ⟨?_, ci, hci, hstart, hstop⟩
          simp
          omega
  | freeStep hreach hmem hfb ih =>
    rename_i n out X n1
    obtain ⟨hcount, hfreeb, houtb⟩ := ih
    obtain ⟨hcs, hmod, hsize, blk, hblk, hbm, hb⟩ := freeBlock_cases _ _ _ hfb
    subst hb
    obtain ⟨htag, ci, hci, hstart, hstop⟩ := houtb _ hmem
    refine ⟨?_, ?_, ?_⟩
    · have herase := List.length_erase_of_mem hmem
      have hpos : 0 < out.length := List.length_pos.mpr (List.ne_nil_of_mem hmem)
      simp only [ChunkedNode.count] at hcount ⊢
      simp
      omega
    · intro p hp
      simp only [List.mem_cons] at hp
      rcases hp with rfl | hp
      · refine ⟨htag, ?_⟩
        have : X.start / n.chunk_size = ci := by
          rw [hstart]
          exact Nat.mul_div_cancel ci (Nat.pos_of_ne_zero hcs)
        simpa [this] using hci
      · exact hfreeb p hp
    · intro Y hY
      exact houtb Y (List.mem_of_mem_erase hY)
  | growStep resp hreach hgw ih =>
    rename_i n out n1
    obtain ⟨hcount, hfreeb, houtb⟩ := ih
    obtain ⟨block, hresp, hcs, hfit, hal, hb⟩ := growWith_ok_cases _ _ _ hgw
    subst hb
    refine ⟨?_, ?_, ?_⟩
    · simp only [ChunkedNode.count] at hcount ⊢
      simp [Nat.succ_mul]
      omega
    · intro p hp
      simp only [List.mem_append, List.mem_map, List.mem_range] at hp
      rcases hp with hp | ⟨i, hi, rfl⟩
      · obtain ⟨h1, h2⟩ := hfreeb p hp
        constructor
        · simp
          omega
        · simpa using h2
      · constructor
        · simp
        · simpa using hi
    · intro X hX
      obtain ⟨htag, ci, hci, hstart, hstop⟩ := houtb X hX
      refine ⟨?_, ci, by simpa using hci, hstart, hstop⟩
      simp
      omega

/-- C7: in every node state reachable from a fresh node by alloc, free of
outstanding chunks, and grow, count equals the free deque length plus the
number of chunks currently handed out, and is_used is true exactly when
the free deque is shorter than the count, that is, when at least one
chunk is outstanding. -/
theorem count_accounting (n : ChunkedNode) (out : List TaggedBlock)
    (h : NodeReach n out) :
    n.count = n.free.length + out.length ∧
    (n.is_used = true ↔ n.free.length < n.count) ∧
    (n.is_used = true ↔ out ≠ []) := by
  obtain ⟨hcount, -, -⟩ := nodeReach_account h
  refine ⟨hcount, ?_, ?_⟩
  · simp only [ChunkedNode.is_used, bne_iff_ne, ne_eq]
    omega
  · have hlen : (out ≠ []) ↔ 0 < out.length := by rw [List.length_pos]
    rw [hlen]
    simp only [ChunkedNode.is_used, bne_iff_ne, ne_eq]
    omega

/-- Witness for C7: after one allocation from a fresh node (fan out 1),
count is 1, the free deque is empty, one chunk is outstanding. -/
theorem count_accounting_witness :
    (⟨0, 1, 1, [], [⟨0, 0, 1⟩]⟩ : ChunkedNode).count =
      ([] : List (Nat × Nat)).length + [(⟨0, 0, 1, 0⟩ : TaggedBlock)].length ∧
    ((⟨0, 1, 1, [], [⟨0, 0, 1⟩]⟩ : ChunkedNode).is_used = true ↔
      ([] : List (Nat × Nat)).length < (⟨0, 1, 1, [], [⟨0, 0, 1⟩]⟩ : ChunkedNode).count) ∧
    ((⟨0, 1, 1, [], [⟨0, 0, 1⟩]⟩ : ChunkedNode).is_used = true ↔
      [(⟨0, 0, 1, 0⟩ : TaggedBlock)] ≠ []) := by
  have heq : (ChunkedNode.new 1 1 0).alloc ⟨1, 1, 1⟩ (Except.ok ⟨0, 0, 1⟩) =
      some (Except.ok ⟨0, 0, 1, 0⟩, ⟨0, 1, 1, [], [⟨0, 0, 1⟩]⟩) := by decide
  exact count_accounting _ _
    (NodeReach.allocStep _ _ _ (NodeReach.init 1 1 0) heq)

/-- C9: in every reachable node state, every pair in the free deque names
an existing block and a chunk index below the fan out, every outstanding
chunk byte range fits inside the first chunks_per_block times chunk_size
bytes carved from its block, the block lookup done by alloc_no_grow
cannot go out of bounds, and the block lookup done by free on an
outstanding chunk cannot go out of bounds. -/
theorem free_entries_valid (n : ChunkedNode) (out : List TaggedBlock)
    (h : NodeReach n out) :
    (∀ p ∈ n.free, p.1 < n.blocks.length ∧ p.2 < n.chunks_per_block) ∧
    (∀ p ∈ n.free, p.2 * n.chunk_size + n.chunk_size ≤
      n.chunks_per_block * n.chunk_size) ∧
    n.alloc_no_grow ≠ none ∧
    (∀ X ∈ out, (n.blocks[X.tag]?).isSome = true) := by
  obtain ⟨hcount, hfreeb, houtb⟩ := nodeReach_account h
  refine ⟨hfreeb, ?_, ?_, ?_⟩
  · intro p hp
    obtain ⟨h1, h2⟩ := hfreeb p hp
    have h3 : p.2 + 1 ≤ n.chunks_per_block := h2
    have h4 : (p.2 + 1) * n.chunk_size ≤ n.chunks_per_block * n.chunk_size :=
      Nat.mul_le_mul_right _ h3
    calc p.2 * n.chunk_size + n.chunk_size = (p.2 + 1) * n.chunk_size := by ring
    _ ≤ n.chunks_per_block * n.chunk_size := h4
  · cases hfree : n.free with
    | nil => simp [ChunkedNode.alloc_no_grow, hfree]
    | cons p rest =>
      obtain ⟨bi, ci⟩ := p
      have hb := (hfreeb (bi, ci) (by rw [hfree]; exact List.mem_cons_self _ _)).1
      have hsome : n.blocks[bi]? = some n.blocks[bi] := List.getElem?_eq_getElem hb
      simp [ChunkedNode.alloc_no_grow, hfree, hsome]
  · intro X hX
    rw [List.getElem?_eq_getElem (houtb X hX).1]
    rfl

/-- Witness for C9 on a node grown once with fan out 2: both free
entries are in bounds and the next pop cannot abort. -/
theorem free_entries_valid_witness :
    (⟨1, 2, 2, [(0, 0), (0, 1)], [⟨5, 0, 4⟩]⟩ : ChunkedNode).alloc_no_grow ≠ none := by
  have hgw : (ChunkedNode.new 2 2 1).growWith (Except.ok ⟨5, 0, 4⟩) =
      some (Except.ok ⟨1, 2, 2, [(0, 0), (0, 1)], [⟨5, 0, 4⟩]⟩) := by decide
  exact (free_entries_valid _ _
    (NodeReach.growStep _ (NodeReach.init 2 2 1) hgw)).2.2.1

/-- C10: with an empty free deque and an owner grant that passes the grow
checks, the retry pop after grow returns a chunk whenever
chunks_per_block is at least 1; for a node with chunks_per_block = 0 the
unwrap aborts (none) instead of returning an error value. -/
theorem retry_after_grow (n : ChunkedNode) (reqs : Requirements) (block : RawBlock)
    (hfree : n.free = []) (hty : ¬ ((1 <<< n.id) &&& reqs.type_mask = 0))
    (hal : alignment_shift n.growRequirements.alignment block.start = 0)
    (hcs : n.chunk_size ≠ 0)
    (hfit : n.chunks_per_block ≤ block.size / n.chunk_size) :
    (1 ≤ n.chunks_per_block →
      n.alloc reqs (Except.ok block) =
        some (Except.ok ⟨block.memory, 0, n.chunk_size, n.blocks.length⟩,
          { n with
            free := List.map (fun i => (n.blocks.length, i + 1))
              (List.range (n.chunks_per_block - 1)),
            blocks := n.blocks ++ [block] })) ∧
    (n.chunks_per_block = 0 → n.alloc reqs (Except.ok block) = none) := by
  have hng : n.alloc_no_grow = some none := by
    simp only [ChunkedNode.alloc_no_grow, hfree]
  have hg := growWith_ok_eq n block hal hcs hfit
  constructor
  · intro h1
    obtain ⟨k, hk⟩ : ∃ k, n.chunks_per_block = k + 1 :=
      ⟨n.chunks_per_block - 1, by omega⟩
    have hfree2 : n.free ++ (List.range n.chunks_per_block).map
        (fun i => (n.blocks.length, i)) =
        (n.blocks.length, 0) ::
          List.map (fun i => (n.blocks.length, i + 1)) (List.range k) := by
      rw [hfree, hk, List.nil_append, List.range_succ_eq_map,
        List.map_cons, List.map_map]
      rfl
    have hng2 : ({ n with
        free := n.free ++ (List.range n.chunks_per_block).map
          (fun i => (n.blocks.length, i)),
        blocks := n.blocks ++ [block] } : ChunkedNode).alloc_no_grow =
        some (some
          (⟨block.memory, 0 * n.chunk_size, n.chunk_size + 0 * n.chunk_size,
            n.blocks.length⟩,
           { n with
             free := List.map (fun i => (n.blocks.length, i + 1)) (List.range k),
             blocks := n.blocks ++ [block] })) := by
      simp only [ChunkedNode.alloc_no_grow, hfree2]
      simp [List.getElem?_concat_length]
    rw [ChunkedNode.alloc, if_neg hty]
    simp only [hng, hg, hng2]
    have hk1 : n.chunks_per_block - 1 = k := by omega
    simp [hk1]
  · intro h0
    have hfree2 : n.free ++ (List.range n.chunks_per_block).map
        (fun i => (n.blocks.length, i)) = [] := by
      rw [hfree, h0]
      rfl
    have hng2 : ({ n with
        free := n.free ++ (List.range n.chunks_per_block).map
          (fun i => (n.blocks.length, i)),
        blocks := n.blocks ++ [block] } : ChunkedNode).alloc_no_grow =
        some none := by
      simp only [ChunkedNode.alloc_no_grow, hfree2]
    rw [ChunkedNode.alloc, if_neg hty]
    simp only [hng, hg, hng2]

/-- Witness for C10: the same request aborts with fan out 0 and succeeds
with fan out 2. -/
theorem retry_after_grow_witness :
    ChunkedNode.alloc ⟨0, 0, 4, [], []⟩ ⟨1, 1, 1⟩ (Except.ok ⟨9, 0, 0⟩) = none ∧
    ChunkedNode.alloc ⟨0, 2, 4, [], []⟩ ⟨1, 1, 1⟩ (Except.ok ⟨9, 0, 8⟩) =
      some (Except.ok ⟨9, 0, 4, 0⟩, ⟨0, 2, 4, [(0, 1)], [⟨9, 0, 8⟩]⟩) := by
  constructor
  · exact (retry_after_grow ⟨0, 0, 4, [], []⟩ ⟨1, 1, 1⟩ ⟨9, 0, 0⟩ rfl
      (by decide) (by decide) (by decide) (by decide)).2 rfl
  · exact (retry_after_grow ⟨0, 2, 4, [], []⟩ ⟨1, 1, 1⟩ ⟨9, 0, 8⟩ rfl
      (by decide) (by decide) (by decide) (by decide)).1 (by decide)

/-- Disposing a list of nodes none of which is used yields all their
blocks in order. -/
theorem disposeNodes_eq (ns : List ChunkedNode)
    (h : ∀ m ∈ ns, m.is_used = false) :
    disposeNodes ns = some (ns.flatMap ChunkedNode.blocks) := by
  induction ns with
  | nil => rfl
  | cons m rest ih =>
    have hm : m.is_used = false := h m (List.mem_cons_self _ _)
    have hrest := ih (fun x hx => h x (List.mem_cons_of_mem _ hx))
    simp [disposeNodes, ChunkedNode.dispose, hm, hrest]

/-- C8: dispose on a used node or router fails returning the instance
itself unchanged with no memory handed back; dispose on an unused node or
router succeeds and hands every backing block of every node back to the
owner, in block index order within each node and in node order, leaving
nothing held. -/
theorem dispose_correct (n : ChunkedNode) (a : ChunkedAllocator) :
    (n.is_used = true → n.dispose = Except.error n) ∧
    (n.is_used = false → n.dispose = Except.ok n.blocks) ∧
    (a.is_used = true → a.dispose = some (Except.error a)) ∧
    (a.is_used = false →
      a.dispose = some (Except.ok (a.nodes.flatMap ChunkedNode.blocks))) := by
  refine ⟨?_, ?_, ?_, ?_⟩
  · intro hu
    simp [ChunkedNode.dispose, hu]
  · intro hu
    simp [ChunkedNode.dispose, hu]
  · intro hu
    simp [ChunkedAllocator.dispose, hu]
  · intro hu
    have hall : ∀ m ∈ a.nodes, m.is_used = false := by
      simp only [ChunkedAllocator.is_used, List.any_eq_false] at hu
      intro m hm
      simpa using hu m hm
    simp [ChunkedAllocator.dispose, hu, disposeNodes_eq a.nodes hall]

/-- Witness for C8: a used node fails to dispose; a router whose single
node is fully free disposes and returns its one block. -/
theorem dispose_correct_witness :
    (⟨0, 1, 4, [], [⟨3, 0, 4⟩]⟩ : ChunkedNode).dispose =
      Except.error ⟨0, 1, 4, [], [⟨3, 0, 4⟩]⟩ ∧
    (⟨0, 1, 4, 4, [⟨0, 1, 4, [(0, 0)], [⟨3, 0, 4⟩]⟩]⟩ : ChunkedAllocator).dispose =
      some (Except.ok [⟨3, 0, 4⟩]) := by
  constructor
  · exact (dispose_correct ⟨0, 1, 4, [], [⟨3, 0, 4⟩]⟩
      ⟨0, 1, 4, 4, [⟨0, 1, 4, [(0, 0)], [⟨3, 0, 4⟩]⟩]⟩).1 (by decide)
  · exact (dispose_correct ⟨0, 1, 4, [], [⟨3, 0, 4⟩]⟩
      ⟨0, 1, 4, 4, [⟨0, 1, 4, [(0, 0)], [⟨3, 0, 4⟩]⟩]⟩).2.2.2 (by decide)

/-! Development for the no double issuance property over router traces. -/

/-- Two chunk handles overlap when they refer to the same backing memory
and their half open byte ranges intersect. -/
def overlaps (x y : TaggedBlock) : Prop :=
  x.memory = y.memory ∧ max x.start y.start < min x.stop y.stop

theorem overlaps_symm {x y : TaggedBlock} (h : overlaps x y) : overlaps y x := by
  obtain ⟨h1, h2⟩ := h
  refine ⟨h1.symm, ?_⟩
  rw [Nat.max_comm, Nat.min_comm]
  exact h2

/-- Two chunks of one size class within the same block overlap only if
they are the same chunk. -/
theorem chunk_overlap_eq (s c1 c2 : Nat)
    (h : max (c1 * s) (c2 * s) < min (s + c1 * s) (s + c2 * s)) : c1 = c2 := by
  rw [Nat.max_lt, Nat.lt_min, Nat.lt_min] at h
  by_contra hne
  rcases Nat.lt_or_ge c1 c2 with hlt | hge
  · have hmul : (c1 + 1) * s ≤ c2 * s := Nat.mul_le_mul_right s (by omega)
    rw [Nat.succ_mul] at hmul
    omega
  · have hlt2 : c2 < c1 := by omega
    have hmul : (c2 + 1) * s ≤ c1 * s := Nat.mul_le_mul_right s (by omega)
    rw [Nat.succ_mul] at hmul
    omega

/-- Per node free deque sanity: no duplicate entries, and every entry in
bounds. -/
def NInv (n : ChunkedNode) : Prop :=
  n.free.Nodup ∧ ∀ p ∈ n.free, p.1 < n.blocks.length ∧ p.2 < n.chunks_per_block

/-- The blocks held by the node at a given index (empty when the index
does not exist). -/
def blocksAt (a : ChunkedAllocator) (i : Nat) : List RawBlock :=
  match a.nodes[i]? with
  | none => []
  | some n => n.blocks

/-- All backing blocks across the router have pairwise distinct memory
identities: a memory determines the node and block index holding it. -/
def MemDistinct (a : ChunkedAllocator) : Prop :=
  ∀ (i bi j bj : Nat) (blki blkj : RawBlock), (blocksAt a i)[bi]? = some blki →
    (blocksAt a j)[bj]? = some blkj →
    blki.memory = blkj.memory → i = j ∧ bi = bj

/-- An issued chunk is carved from some node of the router: its tag names
a block with the chunk memory, its range is one chunk of that class, and
its slot is absent from the free deque. -/
def ChunkAt (a : ChunkedAllocator) (X : TaggedBlock) : Prop :=
  ∃ (i : Nat) (n : ChunkedNode) (ci : Nat) (blk : RawBlock),
    a.nodes[i]? = some n ∧ n.blocks[X.tag]? = some blk ∧
    blk.memory = X.memory ∧ ci < n.chunks_per_block ∧
    X.start = ci * n.chunk_size ∧ X.stop = n.chunk_size + X.start ∧
    (X.tag, ci) ∉ n.free

/-- Router invariant carried along traces: per node sanity, globally
distinct block memories, every issued chunk is carved from a live slot,
and issued chunks are pairwise disjoint. -/
def RInv (a : ChunkedAllocator) (issued : List TaggedBlock) : Prop :=
  (∀ n ∈ a.nodes, NInv n) ∧ MemDistinct a ∧ (∀ X ∈ issued, ChunkAt a X) ∧
  issued.Pairwise (fun Y Z => ¬ overlaps Y Z)

/-- Owner freshness: a granted block carries a memory identity distinct
from every block already held anywhere in the router. -/
def FreshResp (a : ChunkedAllocator) (resp : Except MemoryError RawBlock) : Prop :=
  ∀ blk, resp = Except.ok blk →
    ∀ n ∈ a.nodes, ∀ b ∈ n.blocks, blk.memory ≠ b.memory

/-- Traces of router alloc calls with no frees, collecting successfully
returned chunks, under owner freshness. -/
inductive AllocTrace : ChunkedAllocator → List TaggedBlock → ChunkedAllocator → Prop where
  | nil (a : ChunkedAllocator) : AllocTrace a [] a
  | step {a a1 a2 : ChunkedAllocator} {xs : List TaggedBlock}
      (reqs : Requirements) (resp : Except MemoryError RawBlock)
      (res : Except MemoryError TaggedBlock) :
      FreshResp a resp → a.alloc reqs resp = some (res, a1) →
      AllocTrace a1 xs a2 → AllocTrace a (issuedOf res ++ xs) a2

theorem set_self_of_getElem {α : Type} (l : List α) (k : Nat) (x : α)
    (h : l[k]? = some x) : l.set k x = l := by
  induction l generalizing k with
  | nil => simp at h
  | cons y ys ih =>
    cases k with
    | zero =>
      simp only [List.getElem?_cons_zero, Option.some.injEq] at h
      simp [List.set, h]
    | succ k =>
      simp only [List.getElem?_cons_succ] at h
      simp [List.set, ih k h]

/-- Characterization of successful ChunkedAllocator.grow. -/
theorem router_grow_cases (a : ChunkedAllocator) (s : Nat) (ag : ChunkedAllocator)
    (h : a.grow s = some ag) :
    a.min_chunk_size * (1 <<< s) ≤ a.max_chunk_size ∧
    ag = { a with
      nodes := a.nodes ++
        (List.range' a.nodes.length (s + 1 - a.nodes.length)).map
          (fun index =>
            ChunkedNode.new (a.min_chunk_size * (1 <<< index))
              a.chunks_per_block a.id) } := by
  by_cases hle : a.min_chunk_size * (1 <<< s) ≤ a.max_chunk_size
  · rw [ChunkedAllocator.grow, if_neg (not_not_intro hle)] at h
    injection h with h1
    exact ⟨hle, h1.symm⟩
  · rw [ChunkedAllocator.grow, if_pos (by exact hle)] at h
    exact absurd h (by simp)

/-- Characterization of successful ChunkedAllocator.alloc. -/
theorem router_alloc_cases (a : ChunkedAllocator) (reqs : Requirements)
    (resp : Except MemoryError RawBlock) (res : Except MemoryError TaggedBlock)
    (a1 : ChunkedAllocator) (h : a.alloc reqs resp = some (res, a1)) :
    (res = Except.error MemoryError.OutOfMemory ∧ a1 = a) ∨
    (∃ index ag node node1, a.grow (index + 1) = some ag ∧
      ag.nodes[index]? = some node ∧
      node.alloc reqs resp = some (res, node1) ∧
      a1 = { ag with nodes := ag.nodes.set index node1 }) := by
  by_cases hover : reqs.size > a.max_chunk_size
  · rw [ChunkedAllocator.alloc, if_pos hover] at h
    injection h with h1
    injection h1 with ha hb
    exact Or.inl ⟨ha.symm, hb.symm⟩
  · rw [ChunkedAllocator.alloc, if_neg hover] at h
    cases hpick : a.pick_node (max reqs.size reqs.alignment) with
    | none => simp [hpick] at h
    | some index =>
      simp only [hpick] at h
      cases hgrow : a.grow (index + 1) with
      | none => simp [hgrow] at h
      | some ag =>
        simp only [hgrow] at h
        cases hnode : ag.nodes[index]? with
        | none => simp [hnode] at h
        | some node =>
          simp only [hnode] at h
          cases hnalloc : node.alloc reqs resp with
          | none => simp [hnalloc] at h
          | some pr =>
            obtain ⟨res2, node1⟩ := pr
            simp only [hnalloc] at h
            injection h with h1
            injection h1 with ha hb
            subst ha
            exact Or.inr ⟨index, ag, node, node1, hgrow, hnode, hnalloc, hb.symm⟩

theorem blocksAt_grow (a ag : ChunkedAllocator) (s : Nat) (h : a.grow s = some ag)
    (i : Nat) : blocksAt ag i = blocksAt a i := by
  obtain ⟨-, hag⟩ := router_grow_cases a s ag h
  subst hag
  rcases Nat.lt_or_ge i a.nodes.length with hi | hi
  · simp only [blocksAt, List.getElem?_append_left hi]
  · simp only [blocksAt, List.getElem?_append_right hi, List.getElem?_map,
      List.getElem?_eq_none hi]
    cases hr : (List.range' a.nodes.length
        (s + 1 - a.nodes.length))[i - a.nodes.length]? with
    | none => rfl
    | some v => rfl

theorem fresh_grow (a ag : ChunkedAllocator) (s : Nat)
    (resp : Except MemoryError RawBlock) (h : a.grow s = some ag)
    (hf : FreshResp a resp) : FreshResp ag resp := by
  obtain ⟨-, hag⟩ := router_grow_cases a s ag h
  subst hag
  intro blk hb n hn b hbb
  simp only [List.mem_append] at hn
  rcases hn with hn | hn
  · exact hf blk hb n hn b hbb
  · obtain ⟨i, -, rfl⟩ := List.mem_map.mp hn
    simp [ChunkedNode.new] at hbb

theorem rinv_grow (a ag : ChunkedAllocator) (s : Nat)
    (issued : List TaggedBlock) (h : a.grow s = some ag)
    (hinv : RInv a issued) : RInv ag issued := by
  obtain ⟨hN, hM, hC, hP⟩ := hinv
  have hBA := blocksAt_grow a ag s h
  obtain ⟨-, hag⟩ := router_grow_cases a s ag h
  refine ⟨?_, ?_, ?_, hP⟩
  · intro n hn
    rw [hag] at hn
    simp only [List.mem_append] at hn
    rcases hn with hn | hn
    · exact hN n hn
    · obtain ⟨i, -, rfl⟩ := List.mem_map.mp hn
      refine ⟨List.nodup_nil, ?_⟩
      intro p hp
      simp [ChunkedNode.new] at hp
  · intro i bi j bj bki bkj h1 h2 hm
    rw [hBA i] at h1
    rw [hBA j] at h2
    exact hM i bi j bj bki bkj h1 h2 hm
  · intro X hX
    obtain ⟨i, n, ci, blk, hni, hblk, hmm2, hci, hstart, hstop, hnotin⟩ := hC X hX
    have hi : i < a.nodes.length := (List.getElem?_eq_some_iff.mp hni).1
    refine ⟨i, n, ci, blk, ?_, hblk, hmm2, hci, hstart, hstop, hnotin⟩
    rw [hag]
    simp only [List.getElem?_append_left hi]
    exact hni

theorem rinv_node_step (a : ChunkedAllocator) (issued : List TaggedBlock)
    (k : Nat) (node node1 : ChunkedNode) (reqs : Requirements)
    (resp : Except MemoryError RawBlock) (res : Except MemoryError TaggedBlock)
    (hinv : RInv a issued) (hfresh : FreshResp a resp)
    (hnode : a.nodes[k]? = some node)
    (halloc : node.alloc reqs resp = some (res, node1)) :
    RInv { a with nodes := a.nodes.set k node1 } (issuedOf res ++ issued) := by
  obtain ⟨hN, hM, hC, hP⟩ := hinv
  have hk : k < a.nodes.length := (List.getElem?_eq_some_iff.mp hnode).1
  have hnodemem : node ∈ a.nodes := List.getElem?_mem hnode
  obtain ⟨hnodup, hbounds⟩ := hN node hnodemem
  rcases node_alloc_cases _ _ _ _ _ halloc with
    ⟨ha, hb⟩ | ⟨e, ha, hb⟩ | ⟨bi, ci, rest, blk, hfree, hblk, ha, hb⟩ |
    ⟨block, m, hfree, hresp, hm, ha, hb⟩
  · subst ha
    have hset : a.nodes.set k node1 = a.nodes := by
      rw [hb]
      exact set_self_of_getElem _ _ _ hnode
    simp only [issuedOf, List.nil_append, hset]
    exact ⟨hN, hM, hC, hP⟩
  · subst ha
    have hset : a.nodes.set k node1 = a.nodes := by
      rw [hb]
      exact set_self_of_getElem _ _ _ hnode
    simp only [issuedOf, List.nil_append, hset]
    exact ⟨hN, hM, hC, hP⟩
  · subst ha
    have h1free : node1.free = rest := by rw [hb]
    have h1blocks : node1.blocks = node.blocks := by rw [hb]
    have h1cpb : node1.chunks_per_block = node.chunks_per_block := by rw [hb]
    have h1cs : node1.chunk_size = node.chunk_size := by rw [hb]
    obtain ⟨hbi, hci⟩ := hbounds (bi, ci)
      (by rw [hfree]; exact List.mem_cons_self _ _)
    have hAn : ∀ i, blocksAt { a with nodes := a.nodes.set k node1 } i =
        blocksAt a i := by
      intro i
      by_cases hik : i = k
      · subst hik
        simp only [blocksAt, List.getElem?_set_self hk, hnode, h1blocks]
      · simp only [blocksAt, List.getElem?_set_ne (fun he => hik he.symm)]
    simp only [issuedOf, List.singleton_append]
    refine ⟨?_, ?_, ?_, ?_⟩
    · intro n2 hn2
      rcases List.mem_or_eq_of_mem_set hn2 with hn2 | rfl
      · exact hN n2 hn2
      · refine ⟨?_, ?_⟩
        · rw [h1free]
          exact (List.nodup_cons.mp (hfree ▸ hnodup)).2
        · intro p hp
          rw [h1free] at hp
          have hpmem : p ∈ node.free := by
            rw [hfree]
            exact List.mem_cons_of_mem _ hp
          obtain ⟨hp1, hp2⟩ := hbounds p hpmem
          rw [h1blocks, h1cpb]
          exact ⟨hp1, hp2⟩
    · intro i bi2 j bj2 bki bkj h1 h2 hm2
      rw [hAn i] at h1
      rw [hAn j] at h2
      exact hM i bi2 j bj2 bki bkj h1 h2 hm2
    · intro Y hY
      rcases List.mem_cons.mp hY with rfl | hY
      · refine ⟨k, node1, ci, blk, ?_, ?_, rfl, ?_, ?_, ?_, ?_⟩
        · simp only [List.getElem?_set_self hk]
        · rw [h1blocks]
          exact hblk
        · rw [h1cpb]
          exact hci
        · rw [h1cs]
        · rw [h1cs]
        · rw [h1free]
          intro hmem2
          exact (List.nodup_cons.mp (hfree ▸ hnodup)).1 hmem2
      · obtain ⟨i, nY, ciY, blkY, hni, hblkY, hmemY, hciY, hstartY, hstopY,
          hnotinY⟩ := hC Y hY
        by_cases hik : i = k
        · subst hik
          have hnY : node = nY := by
            rw [hnode] at hni
            exact Option.some.inj hni
          subst hnY
          refine ⟨i, node1, ciY, blkY, ?_, ?_, hmemY, ?_, ?_, ?_, ?_⟩
          · simp only [List.getElem?_set_self hk]
          · rw [h1blocks]
            exact hblkY
          · rw [h1cpb]
            exact hciY
          · rw [h1cs]
            exact hstartY
          · rw [h1cs]
            exact hstopY
          · rw [h1free]
            intro hmem2
            exact hnotinY (by rw [hfree]; exact List.mem_cons_of_mem _ hmem2)
        · refine ⟨i, nY, ciY, blkY, ?_, hblkY, hmemY, hciY, hstartY, hstopY,
            hnotinY⟩
          simp only [List.getElem?_set_ne (fun he => hik he.symm)]
          exact hni
    · rw [List.pairwise_cons]
      constructor
      · intro Z hZ hover
        obtain ⟨i, nZ, ciZ, blkZ, hni, hblkZ, hmemZ, hciZ, hstartZ, hstopZ,
          hnotinZ⟩ := hC Z hZ
        have hXblk : (blocksAt a k)[bi]? = some blk := by
          simp only [blocksAt, hnode]
          exact hblk
        have hZblk : (blocksAt a i)[Z.tag]? = some blkZ := by
          simp only [blocksAt, hni]
          exact hblkZ
        obtain ⟨hover1, hover2⟩ := hover
        have hmemeq : blk.memory = blkZ.memory := by
          rw [hmemZ]
          exact hover1
        obtain ⟨hik, hbit⟩ := hM k bi i Z.tag blk blkZ hXblk hZblk hmemeq
        subst hik
        have hnZ : node = nZ := by
          rw [hnode] at hni
          exact Option.some.inj hni
        subst hnZ
        have hci2 : ci = ciZ := by
          apply chunk_overlap_eq node.chunk_size
          rw [hstopZ, hstartZ] at hover2
          exact hover2
        subst hci2
        apply hnotinZ
        rw [← hbit, hfree]
        exact List.mem_cons_self _ _
      · exact hP
  · subst ha
    have h1free : node1.free =
        List.map (fun i => (node.blocks.length, i + 1)) (List.range m) := by
      rw [hb]
    have h1blocks : node1.blocks = node.blocks ++ [block] := by rw [hb]
    have h1cpb : node1.chunks_per_block = node.chunks_per_block := by rw [hb]
    have h1cs : node1.chunk_size = node.chunk_size := by rw [hb]
    have hfr := hfresh block hresp
    have hMemOf : ∀ (i bi2 : Nat) (bx : RawBlock),
        (blocksAt a i)[bi2]? = some bx → ∃ nn ∈ a.nodes, bx ∈ nn.blocks := by
      intro i bi2 bx hbx
      cases hni : a.nodes[i]? with
      | none =>
        simp only [blocksAt, hni] at hbx
        simp at hbx
      | some nn =>
        simp only [blocksAt, hni] at hbx
        exact ⟨nn, List.getElem?_mem hni, List.getElem?_mem hbx⟩
    have hup : ∀ (i bi2 : Nat) (bx : RawBlock),
        (blocksAt { a with nodes := a.nodes.set k node1 } i)[bi2]? = some bx →
        (blocksAt a i)[bi2]? = some bx ∨
          (i = k ∧ bi2 = node.blocks.length ∧ bx = block) := by
      intro i bi2 bx hbx
      by_cases hik : i = k
      · subst hik
        have hat : blocksAt { a with nodes := a.nodes.set i node1 } i =
            node.blocks ++ [block] := by
          simp only [blocksAt, List.getElem?_set_self hk, h1blocks]
        rw [hat] at hbx
        rcases Nat.lt_trichotomy bi2 node.blocks.length with hlt | heq | hgt
        · left
          rw [List.getElem?_append_left hlt] at hbx
          simp only [blocksAt, hnode]
          exact hbx
        · right
          subst heq
          rw [List.getElem?_concat_length] at hbx
          exact ⟨rfl, rfl, (Option.some.inj hbx).symm⟩
        · exfalso
          have hlen2 : (node.blocks ++ [block]).length ≤ bi2 := by
            simp only [List.length_append, List.length_singleton]
            omega
          rw [List.getElem?_eq_none hlen2] at hbx
          simp at hbx
      · left
        have hat : blocksAt { a with nodes := a.nodes.set k node1 } i =
            blocksAt a i := by
          simp only [blocksAt, List.getElem?_set_ne (fun he => hik he.symm)]
        rw [hat] at hbx
        exact hbx
    simp only [issuedOf, List.singleton_append]
    refine ⟨?_, ?_, ?_, ?_⟩
    · intro n2 hn2
      rcases List.mem_or_eq_of_mem_set hn2 with hn2 | rfl
      · exact hN n2 hn2
      · refine ⟨?_, ?_⟩
        · rw [h1free]
          have hinj : Function.Injective
              (fun i : Nat => (node.blocks.length, i + 1)) := by
            intro i j hij
            simpa using hij
          exact (List.nodup_range m).map hinj
        · intro p hp
          rw [h1free] at hp
          obtain ⟨i, hi, rfl⟩ := List.mem_map.mp hp
          simp only [List.mem_range] at hi
          have hlt1 : node.blocks.length < (node.blocks ++ [block]).length := by
            simp only [List.length_append, List.length_singleton]
            omega
          have hlt2 : i + 1 < node.chunks_per_block := by omega
          constructor
          · rw [h1blocks]
            exact hlt1
          · rw [h1cpb]
            exact hlt2
    · intro i bi2 j bj2 bki bkj h1 h2 hmemeq
      rcases hup i bi2 bki h1 with h1o | ⟨rfl, rfl, rfl⟩
      · rcases hup j bj2 bkj h2 with h2o | ⟨rfl, rfl, rfl⟩
        · exact hM i bi2 j bj2 bki bkj h1o h2o hmemeq
        · exfalso
          obtain ⟨nn, hnn, hbb⟩ := hMemOf i bi2 bki h1o
          exact hfr nn hnn bki hbb hmemeq.symm
      · rcases hup j bj2 bkj h2 with h2o | ⟨rfl, rfl, rfl⟩
        · exfalso
          obtain ⟨nn, hnn, hbb⟩ := hMemOf j bj2 bkj h2o
          exact hfr nn hnn bkj hbb hmemeq
        · exact ⟨rfl, rfl⟩
    · intro Y hY
      rcases List.mem_cons.mp hY with rfl | hY
      · refine ⟨k, node1, 0, block, ?_, ?_, rfl, ?_, ?_, ?_, ?_⟩
        · simp only [List.getElem?_set_self hk]
        · rw [h1blocks]
          exact List.getElem?_concat_length _ _
        · rw [h1cpb, hm]
          omega
        · simp
        · simp [h1cs]
        · rw [h1free]
          intro hmem2
          obtain ⟨i, hi, hpe⟩ := List.mem_map.mp hmem2
          have : i + 1 = 0 := congrArg Prod.snd hpe
          omega
      · obtain ⟨i, nY, ciY, blkY, hni, hblkY, hmemY, hciY, hstartY, hstopY,
          hnotinY⟩ := hC Y hY
        by_cases hik : i = k
        · subst hik
          have hnY : node = nY := by
            rw [hnode] at hni
            exact Option.some.inj hni
          subst hnY
          have htagY : Y.tag < node.blocks.length :=
            (List.getElem?_eq_some_iff.mp hblkY).1
          refine ⟨i, node1, ciY, blkY, ?_, ?_, hmemY, ?_, ?_, ?_, ?_⟩
          · simp only [List.getElem?_set_self hk]
          · rw [h1blocks, List.getElem?_append_left htagY]
            exact hblkY
          · rw [h1cpb]
            exact hciY
          · rw [h1cs]
            exact hstartY
          · rw [h1cs]
            exact hstopY
          · rw [h1free]
            intro hmem2
            obtain ⟨i2, hi2, hpe⟩ := List.mem_map.mp hmem2
            have : node.blocks.length = Y.tag := congrArg Prod.fst hpe
            omega
        · refine ⟨i, nY, ciY, blkY, ?_, hblkY, hmemY, hciY, hstartY, hstopY,
            hnotinY⟩
          simp only [List.getElem?_set_ne (fun he => hik he.symm)]
          exact hni
    · rw [List.pairwise_cons]
      constructor
      · intro Z hZ hover
        obtain ⟨i, nZ, ciZ, blkZ, hni, hblkZ, hmemZ, hciZ, hstartZ, hstopZ,
          hnotinZ⟩ := hC Z hZ
        have hZblk : (blocksAt a i)[Z.tag]? = some blkZ := by
          simp only [blocksAt, hni]
          exact hblkZ
        obtain ⟨nn, hnn, hbb⟩ := hMemOf i Z.tag blkZ hZblk
        apply hfr nn hnn blkZ hbb
        rw [hmemZ]
        exact hover.1
      · exact hP

theorem rinv_step (a a1 : ChunkedAllocator) (issued : List TaggedBlock)
    (reqs : Requirements) (resp : Except MemoryError RawBlock)
    (res : Except MemoryError TaggedBlock)
    (hinv : RInv a issued) (hfresh : FreshResp a resp)
    (h : a.alloc reqs resp = some (res, a1)) :
    RInv a1 (issuedOf res ++ issued) := by
  rcases router_alloc_cases a reqs resp res a1 h with ⟨ha, hb⟩ |
    ⟨index, ag, node, node1, hgrow, hnode, hnalloc, hb⟩
  · subst ha
    subst hb
    simp only [issuedOf, List.nil_append]
    exact hinv
  · subst hb
    have hinv2 := rinv_grow a ag (index + 1) issued hgrow hinv
    have hfresh2 := fresh_grow a ag (index + 1) resp hgrow hfresh
    exact rinv_node_step ag issued index node node1 reqs resp res hinv2 hfresh2
      hnode hnalloc

theorem rinv_init (cpb minc maxc id : Nat) :
    RInv (ChunkedAllocator.new cpb minc maxc id) [] := by
  refine ⟨?_, ?_, ?_, List.Pairwise.nil⟩
  · intro n hn
    simp [ChunkedAllocator.new] at hn
  · intro i bi j bj bki bkj h1 h2 hm
    exfalso
    simp [blocksAt, ChunkedAllocator.new] at h1
  · intro X hX
    cases hX

theorem trace_disjoint (a : ChunkedAllocator) (xs : List TaggedBlock)
    (a2 : ChunkedAllocator) (htr : AllocTrace a xs a2) :
    ∀ issued, RInv a issued →
      (∀ Y ∈ xs, ∀ Z ∈ issued, ¬ overlaps Y Z) ∧
      xs.Pairwise (fun Y Z => ¬ overlaps Y Z) := by
  induction htr with
  | nil a =>
    intro issued hinv
    exact ⟨fun Y hY => absurd hY (List.not_mem_nil Y), List.Pairwise.nil⟩
  | step reqs resp res hfr halloc htr2 ih =>
    rename_i a0 a1 a3 xs
    intro issued hinv
    have hinv1 := rinv_step a0 a1 issued reqs resp res hinv hfr halloc
    obtain ⟨ihdisj, ihpair⟩ := ih (issuedOf res ++ issued) hinv1
    cases res with
    | error e =>
      simp only [issuedOf, List.nil_append] at ihdisj ⊢
      exact ⟨ihdisj, ihpair⟩
    | ok X =>
      simp only [issuedOf, List.singleton_append] at ihdisj ⊢
      have hXdisj : ∀ Z ∈ issued, ¬ overlaps X Z := by
        have hp1 := hinv1.2.2.2
        simp only [issuedOf, List.singleton_append] at hp1
        exact (List.pairwise_cons.mp hp1).1
      constructor
      · intro Y hY Z hZ
        rcases List.mem_cons.mp hY with rfl | hY2
        · exact hXdisj Z hZ
        · exact ihdisj Y hY2 Z (List.mem_cons_of_mem _ hZ)
      · rw [List.pairwise_cons]
        constructor
        · intro Y hY hover
          exact ihdisj Y hY X (List.mem_cons_self _ _) (overlaps_symm hover)
        · exact ihpair

/-- C6: across any sequence of router alloc calls with no intervening
frees, started from a fresh router, with the owner granting backing
blocks of fresh memory identity, the successfully returned chunks occupy
pairwise disjoint byte ranges of backing memory. -/
theorem no_double_issuance (cpb minc maxc id : Nat) (xs : List TaggedBlock)
    (a2 : ChunkedAllocator)
    (h : AllocTrace (ChunkedAllocator.new cpb minc maxc id) xs a2) :
    xs.Pairwise (fun Y Z => ¬ overlaps Y Z) :=
  (trace_disjoint _ xs a2 h [] (rinv_init cpb minc maxc id)).2

/-- Witness for C6: two allocations from a fresh router return the two
chunks of one backing block, which do not overlap. -/
theorem no_double_issuance_witness :
    List.Pairwise (fun Y Z => ¬ overlaps Y Z)
      [(⟨10, 0, 1, 0⟩ : TaggedBlock), ⟨10, 1, 2, 0⟩] := by
  have h1 : (ChunkedAllocator.new 2 1 4 0).alloc ⟨1, 1, 1⟩ (Except.ok ⟨10, 0, 2⟩) =
      some (Except.ok ⟨10, 0, 1, 0⟩,
        ⟨0, 2, 1, 4, [⟨0, 2, 1, [(0, 1)], [⟨10, 0, 2⟩]⟩, ⟨0, 2, 2, [], []⟩]⟩) := by
    decide
  have h2 : (⟨0, 2, 1, 4, [⟨0, 2, 1, [(0, 1)], [⟨10, 0, 2⟩]⟩, ⟨0, 2, 2, [], []⟩]⟩ :
      ChunkedAllocator).alloc ⟨1, 1, 1⟩ (Except.ok ⟨11, 0, 2⟩) =
      some (Except.ok ⟨10, 1, 2, 0⟩,
        ⟨0, 2, 1, 4, [⟨0, 2, 1, [], [⟨10, 0, 2⟩]⟩, ⟨0, 2, 2, [], []⟩]⟩) := by
    decide
  have f1 : FreshResp (ChunkedAllocator.new 2 1 4 0) (Except.ok ⟨10, 0, 2⟩) := by
    intro blk hb n hn
    exact absurd hn (List.not_mem_nil n)
  have f2 : FreshResp
      (⟨0, 2, 1, 4, [⟨0, 2, 1, [(0, 1)], [⟨10, 0, 2⟩]⟩, ⟨0, 2, 2, [], []⟩]⟩ :
        ChunkedAllocator) (Except.ok ⟨11, 0, 2⟩) := by
    intro blk hb
    cases hb
    decide
  exact no_double_issuance 2 1 4 0 _ _
    (AllocTrace.step ⟨1, 1, 1⟩ (Except.ok ⟨10, 0, 2⟩) (Except.ok ⟨10, 0, 1, 0⟩)
      f1 h1
      (AllocTrace.step ⟨1, 1, 1⟩ (Except.ok ⟨11, 0, 2⟩) (Except.ok ⟨10, 1, 2, 0⟩)
        f2 h2 (AllocTrace.nil _)))
